import Mathlib

/-!
Verification of the watcher core of a fine-grained reactivity engine
(src/core/observer/watcher.js): subscriber lifecycle, two-generation
dependency diffing, update dispatch, guarded callback error routing,
teardown, and the cycle-safe deep traversal.

Publishers (Dep), the evaluation-context stack, the scheduler queue and the
small array/removal utilities are external collaborators whose files are not
part of the verified source; they are modelled from the specification's
interface contracts and marked as such.
-/

namespace VueWatcher

/-- A runtime value as seen by the watcher: primitives, `undefined`, or a
reference to a composite (object/array).  JavaScript `!==` on these values is
identity, which the derived decidable equality captures (references compare
by address). -/
inductive Val where
  | undef : Val
  | num : Int → Val
  | str : String → Val
  | bool : Bool → Val
  | ref : Nat → Val
deriving DecidableEq

/-- Modelled from the spec: the object-ness test utility (`isObject`) used by
`run` — true exactly for composite (object/array) values. -/
def isObject : Val → Bool
  | .ref _ => true
  | _ => false

/-- The watcher's own fields (src/core/observer/watcher.js, constructor):
mode flags, the two-generation edge bookkeeping (`deps`/`newDeps` are the
ordered sequences of publisher ids, `depIds`/`newDepIds` the id sets,
matching the `_Set` used by the source), `active`, `dirty`, and the cached
`value`. -/
structure Watcher where
  id : Nat
  deep : Bool
  user : Bool
  lazy : Bool
  sync : Bool
  dirty : Bool
  active : Bool
  deps : List Nat
  newDeps : List Nat
  depIds : Finset Nat
  newDepIds : Finset Nat
  value : Val
deriving DecidableEq

/-- The mutable world surrounding one watcher: the watcher itself, every
publisher's subscriber registry (`store d` is publisher `d`'s `subs` list of
watcher ids, in registry order), the evaluation-context stack (top = last),
the scheduler queue, the owning context's watcher list (`vm._watchers`) and
the `vm._isBeingDestroyed` flag. -/
structure RState where
  w : Watcher
  store : Nat → List Nat
  stack : List Nat
  queue : List Nat
  vmWatchers : List Nat
  destroying : Bool

/-- Modelled from the spec: publisher `addSub(subscriber)` — the publisher
appends the subscriber to its registry (dep.js is not part of the verified
source; §6 gives the contract). -/
def addSub (store : Nat → List Nat) (d : Nat) (wid : Nat) : Nat → List Nat :=
  fun k => if k = d then store d ++ [wid] else store k

/-- Modelled from the spec: publisher `removeSub(subscriber)` — the publisher
removes the subscriber from its (unordered) registry collection (dep.js is
not part of the verified source; §6 gives the contract). -/
def removeSub (store : Nat → List Nat) (d : Nat) (wid : Nat) : Nat → List Nat :=
  fun k => if k = d then (store d).filter (fun x => x != wid) else store k

/-- Modelled from the spec: publisher `notify()` calls `update()` on every
currently-registered subscriber, in registry order; this is the list of
watcher ids whose update hook a mutation of publisher `d` reaches. -/
def notifyTargets (store : Nat → List Nat) (d : Nat) : List Nat :=
  store d

/-- Modelled from the spec: `pushCurrent(subscriber)` on the
evaluation-context stack (strict LIFO; dep.js is not part of the verified
source). -/
def pushTarget (stack : List Nat) (wid : Nat) : List Nat :=
  stack ++ [wid]

/-- Modelled from the spec: `popCurrent()` on the evaluation-context stack
(strict LIFO; dep.js is not part of the verified source). -/
def popTarget (stack : List Nat) : List Nat :=
  stack.dropLast

/-- Modelled from the spec: the scheduler's `enqueue(subscriber)`
(`queueWatcher`; scheduler.js is not part of the verified source) — accepts a
subscriber for deferred flushing, de-duplicated by subscriber identity within
one flush cycle. -/
def enqueue (q : List Nat) (wid : Nat) : List Nat :=
  if wid ∈ q then q else q ++ [wid]

/-- Embeds `Watcher.addDep(dep)`: if the publisher's id is not in the staging
id set, record it there and append the publisher to the staging sequence;
if it is additionally absent from the current (previous-evaluation) id set,
have the publisher add this watcher to its registry. -/
def addDep (st : RState) (dep : Nat) : RState :=
  if dep ∈ st.w.newDepIds then st
  else
    let w1 := { st.w with
      newDepIds := insert dep st.w.newDepIds
      newDeps := st.w.newDeps ++ [dep] }
    if dep ∈ st.w.depIds then { st with w := w1 }
    else { st with w := w1, store := addSub st.store dep st.w.id }

/-- Embeds `Watcher.cleanupDeps()`: walk `deps` from the last element down,
removing this watcher from every publisher whose id is absent from the
staging id set; then swap the id sets (clearing the one that becomes
staging) and swap the sequences (emptying the one that becomes staging). -/
def cleanupDeps (st : RState) : RState :=
  let store' := st.w.deps.reverse.foldl
    (fun s d => if d ∈ st.w.newDepIds then s else removeSub s d st.w.id)
    st.store
  { st with
    w := { st.w with
      depIds := st.w.newDepIds
      newDepIds := ∅
      deps := st.w.newDeps
      newDeps := [] }
    store := store' }

/-- Embeds `Watcher.get()`: push this watcher on the evaluation-context
stack, invoke the getter, pop, run the dependency diff, return the value.
The getter is the arbitrary computation `this.getter.call(vm, vm)`; it
receives the whole state (it may read publishers, i.e. trigger `addDep`) and
either produces a value or throws.  A thrown getter exception unwinds past
the remaining statements of `get` — `popTarget` and `cleanupDeps` do not run
(the source has no try/finally here).  In deep mode the source additionally
runs `traverse(value)` before popping; that walk only touches the traversal
seen-set and performs further publisher reads of the same shape the getter
itself may perform, and is embedded separately over the value heap below. -/
def get (st : RState) (getter : RState → Except Nat Val × RState) :
    Except Nat Val × RState :=
  let st1 := { st with stack := pushTarget st.stack st.w.id }
  match getter st1 with
  | (.error e, st2) => (.error e, st2)
  | (.ok v, st2) =>
      let st3 := { st2 with stack := popTarget st2.stack }
      let st4 := cleanupDeps st3
      (.ok v, st4)

/-- The observable outcome of one `run`/`update` call: the final state, the
callback invocations (new value, old value) in order, the errors handed to
the configured error handler, whether the diagnostic warning was emitted, and
the exception (if any) propagating out of the call. -/
structure RunOut where
  st : RState
  cbCalls : List (Val × Val)
  handlerCalls : List Nat
  warned : Bool
  thrown : Option Nat

/-- Embeds `Watcher.run()` (the scheduler-job / sync-update entry point).
A no-op when `active` is false.  Otherwise re-evaluate via `get` (a getter
exception propagates out of `run`); fire the callback exactly when the new
value differs by identity from the stored one, or is a composite value, or
the watcher is deep.  When firing, store the new value and invoke the
callback with (new, old).  For a guarded (`user`) watcher a callback
exception is routed to the configured error handler when one exists;
otherwise a diagnostic is emitted (in non-production builds, `dev`) and the
error is re-thrown.  For a non-guarded watcher the callback runs bare and
its exception propagates. -/
def run (st : RState) (getter : RState → Except Nat Val × RState)
    (cb : Val → Val → Except Nat Unit) (hasHandler dev : Bool) : RunOut :=
  if st.w.active then
    match get st getter with
    | (.error e, st') =>
        { st := st', cbCalls := [], handlerCalls := [], warned := false,
          thrown := some e }
    | (.ok v, st') =>
        if v ≠ st'.w.value ∨ isObject v = true ∨ st'.w.deep = true then
          let oldValue := st'.w.value
          let st'' := { st' with w := { st'.w with value := v } }
          if st''.w.user then
            match cb v oldValue with
            | .ok _ =>
                { st := st'', cbCalls := [(v, oldValue)], handlerCalls := [],
                  warned := false, thrown := none }
            | .error e =>
                if hasHandler then
                  { st := st'', cbCalls := [(v, oldValue)],
                    handlerCalls := [e], warned := false, thrown := none }
                else
                  { st := st'', cbCalls := [(v, oldValue)], handlerCalls := [],
                    warned := dev, thrown := some e }
          else
            match cb v oldValue with
            | .ok _ =>
                { st := st'', cbCalls := [(v, oldValue)], handlerCalls := [],
                  warned := false, thrown := none }
            | .error e =>
                { st := st'', cbCalls := [(v, oldValue)], handlerCalls := [],
                  warned := false, thrown := some e }
        else
          { st := st', cbCalls := [], handlerCalls := [], warned := false,
            thrown := none }
  else
    { st := st, cbCalls := [], handlerCalls := [], warned := false,
      thrown := none }

/-- Embeds `Watcher.update()` (the hook publishers invoke on notify):
lazy ⇒ set `dirty` and return; sync ⇒ `run` immediately; otherwise hand the
watcher to the scheduler (`queueWatcher`).  There is no `active` check in
this method. -/
def update (st : RState) (getter : RState → Except Nat Val × RState)
    (cb : Val → Val → Except Nat Unit) (hasHandler dev : Bool) : RunOut :=
  if st.w.lazy then
    { st := { st with w := { st.w with dirty := true } }, cbCalls := [],
      handlerCalls := [], warned := false, thrown := none }
  else if st.w.sync then
    run st getter cb hasHandler dev
  else
    { st := { st with queue := enqueue st.queue st.w.id }, cbCalls := [],
      handlerCalls := [], warned := false, thrown := none }

/-- Embeds `Watcher.teardown()`: when still active, remove this watcher from
the context's watcher list (skipped when the whole context is being
destroyed; the `remove` array utility drops the watcher's entry), remove the
watcher from every publisher in its current edge sequence (walking from the
last element down), and clear `active`.  A second call finds `active` false
and does nothing. -/
def teardown (st : RState) : RState :=
  if st.w.active then
    let vw := if st.destroying = false then st.vmWatchers.erase st.w.id
              else st.vmWatchers
    let store' := st.w.deps.reverse.foldl
      (fun s d => removeSub s d st.w.id) st.store
    { st with
      w := { st.w with active := false }
      vmWatchers := vw
      store := store' }
  else st

/-- Embeds the constructor (lazy case): mode flags from the options object,
`active` starts true, `dirty` starts equal to `lazy` (true here), the edge
containers start empty, and — because the watcher is lazy — the initial
value is left `undefined` instead of calling `get`. -/
def mkLazyWatcher (id : Nat) (deep user sync : Bool) : Watcher :=
  { id := id, deep := deep, user := user, lazy := true, sync := sync,
    dirty := true, active := true, deps := [], newDeps := [],
    depIds := ∅, newDepIds := ∅, value := .undef }

/-! ## Deep traversal (`traverse` / `_traverse`)

The value heap: an address space of nodes.  A composite node records whether
it is an array, whether it is extensible, its reactive-instrumentation
marker (`__ob__`, carrying the associated publisher's `dep.id` when present)
and its children — for an array the elements in index order, for an object
the property values in `Object.keys` order.  The source walks both with
`while (i--)`, i.e. in reverse order. -/

/-- A node of the value heap reachable from a traversed value. -/
inductive Node where
  | prim : Node
  | comp (isArr : Bool) (ext : Bool) (ob : Option Nat) (children : List Nat) : Node
deriving DecidableEq

/-- The value heap: every address holds a node. -/
def Heap : Type := Nat → Node

/-- Thread a fallible child-walk over a list of child addresses,
propagating the growing seen-set (the body of the `while (i--)` loops of
`_traverse`, with the walk of one child abstracted as `f`). -/
def tlistAux (f : Nat → Finset Nat → Option (Finset Nat)) :
    List Nat → Finset Nat → Option (Finset Nat)
  | [], seen => some seen
  | c :: cs, seen =>
      match f c seen with
      | none => none
      | some seen' => tlistAux f cs seen'

/-- Embeds `_traverse(val, seen)`.  Primitives (neither array nor object)
and non-extensible values return at once.  A composite carrying the `__ob__`
marker is pruned when its publisher id is already in the seen-set, and
records the id before walking its children otherwise.  Children are walked
from the last one down (`while (i--)`).  The `fuel` argument bounds the
recursion depth so the walk is a total function; `none` means the depth
bound was exhausted (the source function has no such bound and would simply
not terminate on the corresponding inputs). -/
def traverseNode (H : Heap) : Nat → Nat → Finset Nat → Option (Finset Nat)
  | 0, _, _ => none
  | fuel + 1, a, seen =>
      match H a with
      | .prim => some seen
      | .comp _ ext ob cs =>
          if ext = false then some seen
          else
            match ob with
            | some d =>
                if d ∈ seen then some seen
                else tlistAux (fun c s => traverseNode H fuel c s)
                       cs.reverse (insert d seen)
            | none =>
                tlistAux (fun c s => traverseNode H fuel c s) cs.reverse seen

/-- Embeds the top-level `traverse(val)`: the traversal-scoped seen-set
(`seenObjects`) is cleared before the walk starts, so the walk begins from
the empty seen-set. -/
def traverse (H : Heap) (fuel : Nat) (a : Nat) : Option (Finset Nat) :=
  traverseNode H fuel a ∅

/-- Depth measure for the traversal: `Ds` is a set containing every marker
publisher id of the heap, `Rm` bounds the rank function `r`, and the measure
drops as markers enter the seen-set and as the rank falls along
unmarked edges. -/
def travBound (Ds : Finset Nat) (Rm : Nat) (r : Nat → Nat)
    (seen : Finset Nat) (a : Nat) : Nat :=
  (Ds.card - (seen ∩ Ds).card) * (Rm + 1) + r a

/-! ## Concrete states used by the closed witnesses and counterexamples -/

/-- A concrete watcher: id 7, plain mode, previous-evaluation edges to
publishers 1 and 2, staging edge to publisher 2 only. -/
def wEx : Watcher :=
  { id := 7, deep := false, user := false, lazy := false, sync := false,
    dirty := false, active := true, deps := [1, 2], newDeps := [2],
    depIds := {1, 2}, newDepIds := {2}, value := .num 0 }

/-- A concrete world around `wEx`: watcher 7 is registered with publishers 1
and 2, the stack and queue are empty. -/
def stEx : RState :=
  { w := wEx,
    store := fun d => if d = 1 then [7] else if d = 2 then [7] else [],
    stack := [], queue := [], vmWatchers := [7], destroying := false }

/-- A getter that returns the number 1 without touching the state. -/
def gOk : RState → Except Nat Val × RState := fun s => (.ok (.num 1), s)

/-- A getter that throws error 5 without touching the state. -/
def gThrow : RState → Except Nat Val × RState := fun s => (.error 5, s)

/-- A callback that returns normally. -/
def cbOk : Val → Val → Except Nat Unit := fun _ _ => .ok ()

/-- A callback that throws error 9. -/
def cbThrow : Val → Val → Except Nat Unit := fun _ _ => .error 9

/-- A concrete cyclic heap: address 0 is an extensible instrumented
composite (marker publisher id 5) whose only child is itself. -/
def HEx : Heap := fun n => if n = 0 then .comp false true (some 5) [0] else .prim

/-- A rank function for `HEx` (no unmarked composite exists, so any rank
works). -/
def rEx : Nat → Nat := fun _ => 0

/-! ## Theorems -/

/-- C2: `addDep` adds the publisher's id to the staging id set and appends
the publisher to the staging sequence only when the id is not already
staged; it has the publisher register this watcher only when the id is
additionally absent from the current (previous-evaluation) id set; and when
the staging sequence is duplicate-free and mirrored by the staging id set,
it stays duplicate-free. -/
theorem addDep_spec (st : RState) (dep : Nat) :
    (dep ∈ st.w.newDepIds → addDep st dep = st) ∧
    (dep ∉ st.w.newDepIds →
      (addDep st dep).w.newDepIds = insert dep st.w.newDepIds ∧
      (addDep st dep).w.newDeps = st.w.newDeps ++ [dep] ∧
      (dep ∈ st.w.depIds → (addDep st dep).store = st.store) ∧
      (dep ∉ st.w.depIds →
        (addDep st dep).store = addSub st.store dep st.w.id)) ∧
    (st.w.newDeps.Nodup → (∀ x, x ∈ st.w.newDeps → x ∈ st.w.newDepIds) →
      (addDep st dep).w.newDeps.Nodup) := by
  refine ⟨?_, ?_, ?_⟩
  · intro h
    simp [addDep, h]
  · intro h
    by_cases hd : dep ∈ st.w.depIds <;> simp [addDep, h, hd]
  · intro hnd hsub
    by_cases h : dep ∈ st.w.newDepIds
    · simpa [addDep, h] using hnd
    · have hdep : dep ∉ st.w.newDeps := fun hmem => h (hsub dep hmem)
      by_cases hd : dep ∈ st.w.depIds <;>
        simp [addDep, h, hd, List.nodup_append, hnd, hdep]

theorem addDep_spec_witness :
    (addDep stEx 3).w.newDepIds = insert 3 stEx.w.newDepIds ∧
    (addDep stEx 3).w.newDeps = stEx.w.newDeps ++ [3] ∧
    (addDep stEx 3).store = addSub stEx.store 3 stEx.w.id :=
  ⟨((addDep_spec stEx 3).2.1 (by decide)).1,
   ((addDep_spec stEx 3).2.1 (by decide)).2.1,
   ((addDep_spec stEx 3).2.1 (by decide)).2.2.2 (by decide)⟩

/-- C6: `update` dispatches on the mode flags — lazy only sets `dirty`;
non-lazy sync runs immediately; otherwise the watcher is handed to the
scheduler queue. -/
theorem update_dispatch (st : RState)
    (getter : RState → Except Nat Val × RState)
    (cb : Val → Val → Except Nat Unit) (hasHandler dev : Bool) :
    (st.w.lazy = true → update st getter cb hasHandler dev =
      { st := { st with w := { st.w with dirty := true } }, cbCalls := [],
        handlerCalls := [], warned := false, thrown := none }) ∧
    (st.w.lazy = false → st.w.sync = true →
      update st getter cb hasHandler dev = run st getter cb hasHandler dev) ∧
    (st.w.lazy = false → st.w.sync = false →
      update st getter cb hasHandler dev =
        { st := { st with queue := enqueue st.queue st.w.id }, cbCalls := [],
          handlerCalls := [], warned := false, thrown := none }) := by
  refine ⟨fun h => ?_, fun h hs => ?_, fun h hs => ?_⟩ <;>
    simp [update, h] <;> simp [hs]

theorem update_dispatch_witness :
    update stEx gOk cbOk false false =
      { st := { stEx with queue := enqueue stEx.queue stEx.w.id },
        cbCalls := [], handlerCalls := [], warned := false, thrown := none } :=
  (update_dispatch stEx gOk cbOk false false).2.2 rfl rfl

/-- C10: a watcher constructed with both `lazy` and `sync` set takes the
lazy branch of `update`: `dirty` is set and nothing else happens — no `run`,
no enqueue (lazy takes precedence over sync). -/
theorem lazy_precedes_sync (st : RState)
    (getter : RState → Except Nat Val × RState)
    (cb : Val → Val → Except Nat Unit) (hasHandler dev : Bool)
    (id : Nat) (deep user : Bool)
    (hw : st.w = mkLazyWatcher id deep user true) :
    update st getter cb hasHandler dev =
      { st := { st with w := { st.w with dirty := true } }, cbCalls := [],
        handlerCalls := [], warned := false, thrown := none } ∧
    (update st getter cb hasHandler dev).st.queue = st.queue ∧
    (update st getter cb hasHandler dev).cbCalls = [] := by
  have hl : st.w.lazy = true := by rw [hw]; rfl
  refine ⟨?_, ?_, ?_⟩ <;> simp [update, hl]

theorem lazy_precedes_sync_witness :
    update { stEx with w := mkLazyWatcher 3 false false true } gOk cbOk
        false false =
      { st := { stEx with w := { mkLazyWatcher 3 false false true with
          dirty := true } },
        cbCalls := [], handlerCalls := [], warned := false, thrown := none } :=
  (lazy_precedes_sync { stEx with w := mkLazyWatcher 3 false false true }
    gOk cbOk false false 3 false false rfl).1

/-- C3 (divergence from the spec): `get` has no structured exit handling, so
when the getter throws, `popTarget` never runs and the watcher is left on
the evaluation-context stack — the stack is NOT restored to the previous
context.  Concretely: starting from an empty stack, a throwing getter leaves
the watcher's id on the stack, while a normally-returning getter restores
the empty stack. -/
theorem get_throw_leaves_stack_unpopped :
    (get stEx gThrow).1 = .error 5 ∧
    (get stEx gThrow).2.stack = [wEx.id] ∧
    (get stEx gThrow).2.stack ≠ stEx.stack ∧
    (get stEx gOk).2.stack = stEx.stack := by
  refine ⟨rfl, rfl, ?_, rfl⟩
  decide

/-- C4 (counterexample): `update` performs no `active` check, so an
inactive watcher in default (non-lazy, non-sync) mode is still handed to
the scheduler's queue, contrary to the claim that update on an inactive
subscriber never reaches the queue. -/
theorem update_inactive_still_enqueued :
    ({ stEx with w := { wEx with active := false } } : RState).w.active
        = false ∧
    stEx.queue = [] ∧
    (update { stEx with w := { wEx with active := false } } gOk cbOk
        false false).st.queue = [wEx.id] := by
  refine ⟨rfl, rfl, ?_⟩
  decide

/-- C4 (amended): for an inactive watcher, `run` is a complete no-op, and
`update` never touches any publisher registry, never fires the callback and
never throws; but in default (non-lazy, non-sync) mode `update` still hands
the inactive watcher to the scheduler's queue. -/
theorem inactive_watcher_amended (st : RState)
    (getter : RState → Except Nat Val × RState)
    (cb : Val → Val → Except Nat Unit) (hasHandler dev : Bool)
    (h : st.w.active = false) :
    run st getter cb hasHandler dev =
      { st := st, cbCalls := [], handlerCalls := [], warned := false,
        thrown := none } ∧
    (update st getter cb hasHandler dev).st.store = st.store ∧
    (update st getter cb hasHandler dev).cbCalls = [] ∧
    (update st getter cb hasHandler dev).thrown = none ∧
    (st.w.lazy = false → st.w.sync = false →
      (update st getter cb hasHandler dev).st.queue
        = enqueue st.queue st.w.id) := by
  have hrun : run st getter cb hasHandler dev =
      { st := st, cbCalls := [], handlerCalls := [], warned := false,
        thrown := none } := by
    simp [run, h]
  refine ⟨hrun, ?_, ?_, ?_, fun hl hs => ?_⟩ <;>
    cases hl : st.w.lazy <;> cases hs : st.w.sync <;>
      simp_all [update, hrun]

theorem inactive_watcher_amended_witness :
    run { stEx with w := { wEx with active := false } } gOk cbOk false false =
      { st := { stEx with w := { wEx with active := false } }, cbCalls := [],
        handlerCalls := [], warned := false, thrown := none } ∧
    (update { stEx with w := { wEx with active := false } } gOk cbOk
        false false).st.queue
      = enqueue stEx.queue wEx.id :=
  ⟨(inactive_watcher_amended { stEx with w := { wEx with active := false } }
      gOk cbOk false false rfl).1,
   (inactive_watcher_amended { stEx with w := { wEx with active := false } }
      gOk cbOk false false rfl).2.2.2.2 rfl rfl⟩

/-- Once the watcher is absent from a publisher's registry, the cleanup
walk never re-adds it. -/
theorem cleanupFold_preserve (N : Finset Nat) (wid : Nat) :
    ∀ (l : List Nat) (s : Nat → List Nat) (k : Nat),
      wid ∉ s k →
      wid ∉ (l.foldl (fun s d => if d ∈ N then s else removeSub s d wid) s)
          k := by
  intro l
  induction l with
  | nil => intro s k h; simpa using h
  | cons a l ih =>
    intro s k h
    simp only [List.foldl_cons]
    apply ih
    by_cases haN : a ∈ N
    · simpa [haN] using h
    · by_cases hk : k = a
      · subst hk; simp [haN, removeSub, List.mem_filter]
      · simpa [haN, removeSub, hk] using h

/-- The cleanup walk removes the watcher from every publisher that occurs
in the walked list and is absent from the staging id set. -/
theorem cleanupFold_removes (N : Finset Nat) (wid : Nat) :
    ∀ (l : List Nat) (s : Nat → List Nat) (k : Nat), k ∈ l → k ∉ N →
      wid ∉ (l.foldl (fun s d => if d ∈ N then s else removeSub s d wid) s)
          k := by
  intro l
  induction l with
  | nil => intro s k hk _; exact absurd hk (List.not_mem_nil k)
  | cons a l ih =>
    intro s k hk hkN
    simp only [List.foldl_cons]
    rcases List.mem_cons.1 hk with h | h
    · subst h
      apply cleanupFold_preserve
      simp [hkN, removeSub, List.mem_filter]
    · exact ih _ _ h hkN

/-- The cleanup walk leaves every publisher that is not walked, or whose id
is in the staging id set, untouched. -/
theorem cleanupFold_frame (N : Finset Nat) (wid : Nat) :
    ∀ (l : List Nat) (s : Nat → List Nat) (k : Nat), k ∉ l ∨ k ∈ N →
      (l.foldl (fun s d => if d ∈ N then s else removeSub s d wid) s) k
        = s k := by
  intro l
  induction l with
  | nil => intro s k _; rfl
  | cons a l ih =>
    intro s k hk
    have htail : k ∉ l ∨ k ∈ N := by
      rcases hk with h | h
      · exact Or.inl (fun hm => h (List.mem_cons_of_mem a hm))
      · exact Or.inr h
    simp only [List.foldl_cons]
    rw [ih _ _ htail]
    by_cases haN : a ∈ N
    · simp [haN]
    · have hka : k ≠ a := by
        rcases hk with h | h
        · exact fun e => h (e ▸ List.mem_cons_self a l)
        · exact fun e => haN (e ▸ h)
      simp [haN, removeSub, hka]

/-- C1: at the end of an evaluation, `cleanupDeps` removes the watcher from
exactly those publishers that are in the current edge sequence but absent
from the staging id set (so a publisher read only in an untaken branch no
longer notifies the watcher), leaves every other registry untouched, makes
staging the new current generation, and clears the staging containers. -/
theorem cleanupDeps_diff (st : RState) :
    (∀ d, d ∈ st.w.deps → d ∉ st.w.newDepIds →
      st.w.id ∉ (cleanupDeps st).store d ∧
      st.w.id ∉ notifyTargets (cleanupDeps st).store d) ∧
    (∀ d, d ∉ st.w.deps ∨ d ∈ st.w.newDepIds →
      (cleanupDeps st).store d = st.store d) ∧
    (cleanupDeps st).w.depIds = st.w.newDepIds ∧
    (cleanupDeps st).w.newDepIds = ∅ ∧
    (cleanupDeps st).w.deps = st.w.newDeps ∧
    (cleanupDeps st).w.newDeps = [] := by
  refine ⟨?_, ?_, rfl, rfl, rfl, rfl⟩
  · intro d hd hdN
    have h := cleanupFold_removes st.w.newDepIds st.w.id st.w.deps.reverse
      st.store d (List.mem_reverse.2 hd) hdN
    exact ⟨h, h⟩
  · intro d hd
    have hd' : d ∉ st.w.deps.reverse ∨ d ∈ st.w.newDepIds := by
      rcases hd with h | h
      · exact Or.inl (fun hm => h (List.mem_reverse.1 hm))
      · exact Or.inr h
    exact cleanupFold_frame st.w.newDepIds st.w.id st.w.deps.reverse
      st.store d hd'

theorem cleanupDeps_diff_witness :
    stEx.w.id ∉ (cleanupDeps stEx).store 1 ∧
    stEx.w.id ∉ notifyTargets (cleanupDeps stEx).store 1 ∧
    (cleanupDeps stEx).store 2 = stEx.store 2 ∧
    (cleanupDeps stEx).w.depIds = stEx.w.newDepIds :=
  ⟨((cleanupDeps_diff stEx).1 1 (by decide) (by decide)).1,
   ((cleanupDeps_diff stEx).1 1 (by decide) (by decide)).2,
   (cleanupDeps_diff stEx).2.1 2 (Or.inr (by decide)),
   (cleanupDeps_diff stEx).2.2.1⟩

/-- Once the watcher is absent from a publisher's registry, the teardown
walk never re-adds it. -/
theorem teardownFold_preserve (wid : Nat) :
    ∀ (l : List Nat) (s : Nat → List Nat) (k : Nat),
      wid ∉ s k →
      wid ∉ (l.foldl (fun s d => removeSub s d wid) s) k := by
  intro l
  induction l with
  | nil => intro s k h; simpa using h
  | cons a l ih =>
    intro s k h
    simp only [List.foldl_cons]
    apply ih
    by_cases hk : k = a
    · subst hk; simp [removeSub, List.mem_filter]
    · simpa [removeSub, hk] using h

/-- The teardown walk removes the watcher from every publisher occurring in
the walked list. -/
theorem teardownFold_removes (wid : Nat) :
    ∀ (l : List Nat) (s : Nat → List Nat) (k : Nat), k ∈ l →
      wid ∉ (l.foldl (fun s d => removeSub s d wid) s) k := by
  intro l
  induction l with
  | nil => intro s k hk; exact absurd hk (List.not_mem_nil k)
  | cons a l ih =>
    intro s k hk
    simp only [List.foldl_cons]
    rcases List.mem_cons.1 hk with h | h
    · subst h
      apply teardownFold_preserve
      simp [removeSub, List.mem_filter]
    · exact ih _ _ h

/-- C9: teardown is idempotent — the second call is the identity — and
after the first call the watcher is inactive and removed from every
publisher in its current edge sequence. -/
theorem teardown_spec (st : RState) :
    teardown (teardown st) = teardown st ∧
    (teardown st).w.active = false ∧
    (st.w.active = true →
      ∀ d, d ∈ st.w.deps → st.w.id ∉ (teardown st).store d) := by
  have key : ∀ Y : RState, Y.w.active = false → teardown Y = Y := by
    intro Y hY
    simp [teardown, hY]
  have hinact : (teardown st).w.active = false := by
    by_cases h : st.w.active = true
    · simp [teardown, h]
    · rw [key st (by simpa using h)]
      simpa using h
  refine ⟨key (teardown st) hinact, hinact, ?_⟩
  · intro h d hd
    have hrm := teardownFold_removes st.w.id st.w.deps.reverse st.store d
      (List.mem_reverse.2 hd)
    simpa [teardown, h] using hrm

theorem teardown_spec_witness :
    stEx.w.id ∉ (teardown stEx).store 1 ∧
    stEx.w.id ∉ (teardown stEx).store 2 :=
  ⟨(teardown_spec stEx).2.2 rfl 1 (by decide),
   (teardown_spec stEx).2.2 rfl 2 (by decide)⟩

/-- C5: for an active watcher whose getter returns normally, `run` fires
the callback with (new value, old value) exactly when the new value differs
by identity from the stored value, or is a composite value, or the watcher
is deep; for an inactive watcher `run` does nothing at all. -/
theorem run_fires_iff (st : RState)
    (getter : RState → Except Nat Val × RState)
    (cb : Val → Val → Except Nat Unit) (hasHandler dev : Bool) :
    (st.w.active = false → run st getter cb hasHandler dev =
      { st := st, cbCalls := [], handlerCalls := [], warned := false,
        thrown := none }) ∧
    (st.w.active = true → ∀ v stG, get st getter = (.ok v, stG) →
      (run st getter cb hasHandler dev).cbCalls =
        (if v ≠ stG.w.value ∨ isObject v = true ∨ stG.w.deep = true
         then [(v, stG.w.value)] else [])) := by
  constructor
  · intro h
    simp [run, h]
  · intro h v stG hget
    by_cases hc : v ≠ stG.w.value ∨ isObject v = true ∨ stG.w.deep = true
    · cases hu : stG.w.user <;> cases hcb : cb v stG.w.value <;>
        cases hasHandler <;> simp [run, h, hget, hc, hu, hcb]
    · simp [run, h, hget, hc]

theorem run_fires_iff_witness :
    (run stEx gOk cbOk false false).cbCalls = [(Val.num 1, Val.num 0)] := by
  have h := (run_fires_iff stEx gOk cbOk false false).2 rfl (Val.num 1)
    (get stEx gOk).2 rfl
  rw [h]
  decide

/-- C7: error routing at the callback boundary of `run`.  For a guarded
(`user`) watcher whose callback throws: with a configured error handler the
handler receives the error and nothing is re-thrown; without one the
diagnostic is emitted (in a non-production build) and the error is
re-thrown.  For a non-guarded watcher the error propagates bare: no handler
call, no diagnostic. -/
theorem run_guarded_error_routing (st : RState)
    (getter : RState → Except Nat Val × RState)
    (cb : Val → Val → Except Nat Unit) (hasHandler dev : Bool)
    (v : Val) (stG : RState) (e : Nat)
    (hact : st.w.active = true)
    (hget : get st getter = (.ok v, stG))
    (hfire : v ≠ stG.w.value ∨ isObject v = true ∨ stG.w.deep = true)
    (hcb : cb v stG.w.value = .error e) :
    (stG.w.user = true → hasHandler = true →
      (run st getter cb hasHandler dev).handlerCalls = [e] ∧
      (run st getter cb hasHandler dev).thrown = none) ∧
    (stG.w.user = true → hasHandler = false →
      (run st getter cb hasHandler dev).thrown = some e ∧
      (run st getter cb hasHandler dev).warned = dev) ∧
    (stG.w.user = false →
      (run st getter cb hasHandler dev).thrown = some e ∧
      (run st getter cb hasHandler dev).handlerCalls = [] ∧
      (run st getter cb hasHandler dev).warned = false) := by
  refine ⟨fun hu hh => ?_, fun hu hh => ?_, fun hu => ?_⟩
  · simp [run, hact, hget, hfire, hu, hh, hcb]
  · simp [run, hact, hget, hfire, hu, hh, hcb]
  · simp [run, hact, hget, hfire, hu, hcb]

theorem run_guarded_error_routing_witness :
    (run { stEx with w := { wEx with user := true } } gOk cbThrow true
        true).handlerCalls = [9] ∧
    (run { stEx with w := { wEx with user := true } } gOk cbThrow true
        true).thrown = none :=
  (run_guarded_error_routing { stEx with w := { wEx with user := true } }
    gOk cbThrow true true (Val.num 1)
    (get { stEx with w := { wEx with user := true } } gOk).2 9
    rfl rfl (Or.inl (by decide)) rfl).1 (by decide) rfl

/-- Growing the seen-set can only shrink the traversal depth measure. -/
theorem travBound_anti (Ds : Finset Nat) (Rm : Nat) (r : Nat → Nat)
    {S T : Finset Nat} (h : S ⊆ T) (a : Nat) :
    travBound Ds Rm r T a ≤ travBound Ds Rm r S a := by
  unfold travBound
  have h1 : (S ∩ Ds).card ≤ (T ∩ Ds).card :=
    Finset.card_le_card (Finset.inter_subset_inter h (Finset.Subset.refl Ds))
  have h2 : Ds.card - (T ∩ Ds).card ≤ Ds.card - (S ∩ Ds).card :=
    Nat.sub_le_sub_left h1 Ds.card
  exact Nat.add_le_add_right (Nat.mul_le_mul_right _ h2) _

/-- If every child of a walked list completes from any seen-set extending a
common base, the whole threaded child walk completes, and the seen-set only
grows. -/
theorem tlistAux_total {f : Nat → Finset Nat → Option (Finset Nat)} :
    ∀ (cs : List Nat) (base T : Finset Nat), base ⊆ T →
      (∀ c ∈ cs, ∀ T', base ⊆ T' → ∃ S', f c T' = some S' ∧ T' ⊆ S') →
      ∃ S', tlistAux f cs T = some S' ∧ T ⊆ S' := by
  intro cs
  induction cs with
  | nil =>
    intro base T _ _
    exact ⟨T, rfl, Finset.Subset.refl T⟩
  | cons c cs ih =>
    intro base T hbT hf
    obtain ⟨S1, hS1, hTS1⟩ := hf c (List.mem_cons_self c cs) T hbT
    obtain ⟨S2, hS2, hS12⟩ := ih base S1 (Finset.Subset.trans hbT hTS1)
      (fun c' hc' => hf c' (List.mem_cons_of_mem c hc'))
    refine ⟨S2, ?_, Finset.Subset.trans hTS1 hS12⟩
    simp only [tlistAux, hS1]
    exact hS2

/-- Fuel sufficiency for `traverseNode`: on a heap whose unmarked extensible
composites admit a rank function decreasing into every child (i.e. every
cycle passes through a marked composite), whose marker ids all lie in `Ds`
and whose ranks are bounded by `Rm`, the walk completes from any seen-set
within fuel `travBound`, and the seen-set only grows. -/
theorem traverseNode_total (H : Heap) (r : Nat → Nat) (Rm : Nat)
    (Ds : Finset Nat)
    (hR : ∀ a isArr cs b, H a = .comp isArr true none cs → b ∈ cs →
      r b < r a)
    (hRm : ∀ a, r a ≤ Rm)
    (hDs : ∀ a isArr ext d cs, H a = .comp isArr ext (some d) cs → d ∈ Ds) :
    ∀ (F : Nat) (a : Nat) (seen : Finset Nat),
      travBound Ds Rm r seen a < F →
      ∃ S', traverseNode H F a seen = some S' ∧ seen ⊆ S' := by
  intro F
  induction F using Nat.strong_induction_on with
  | _ F IH =>
    intro a seen hb
    cases F with
    | zero => exact absurd hb (Nat.not_lt_zero _)
    | succ F' =>
      rcases hHa : H a with _ | ⟨isArr, ext, ob, cs⟩
      · exact ⟨seen, by simp [traverseNode, hHa], Finset.Subset.refl seen⟩
      · cases ext with
        | false =>
          exact ⟨seen, by simp [traverseNode, hHa], Finset.Subset.refl seen⟩
        | true =>
          cases ob with
          | none =>
            have hchild : ∀ c ∈ cs.reverse, ∀ T', seen ⊆ T' →
                ∃ S', traverseNode H F' c T' = some S' ∧ T' ⊆ S' := by
              intro c hc T' hT'
              apply IH F' (Nat.lt_succ_self F')
              have hrc : r c < r a := hR a isArr cs c hHa (List.mem_reverse.1 hc)
              have h1 : travBound Ds Rm r T' c ≤ travBound Ds Rm r seen c :=
                travBound_anti Ds Rm r hT' c
              have h2 : travBound Ds Rm r seen c < travBound Ds Rm r seen a :=
                Nat.add_lt_add_left hrc _
              omega
            obtain ⟨S', hS', hsub⟩ := tlistAux_total cs.reverse seen seen
              (Finset.Subset.refl seen) hchild
            exact ⟨S', by simpa [traverseNode, hHa] using hS', hsub⟩
          | some d =>
            by_cases hds : d ∈ seen
            · exact ⟨seen, by simp [traverseNode, hHa, hds],
                Finset.Subset.refl seen⟩
            · have hdDs : d ∈ Ds := hDs a isArr true d cs hHa
              have hdseen : d ∉ seen ∩ Ds :=
                fun hmem => hds (Finset.mem_of_mem_inter_left hmem)
              have hcard : (insert d seen ∩ Ds).card = (seen ∩ Ds).card + 1 := by
                rw [Finset.insert_inter_of_mem hdDs]
                exact Finset.card_insert_of_not_mem hdseen
              have hklt : (seen ∩ Ds).card < Ds.card := by
                apply Finset.card_lt_card
                rw [Finset.ssubset_iff_of_subset Finset.inter_subset_right]
                exact ⟨d, hdDs, hdseen⟩
              have hchild : ∀ c ∈ cs.reverse, ∀ T', insert d seen ⊆ T' →
                  ∃ S', traverseNode H F' c T' = some S' ∧ T' ⊆ S' := by
                intro c hc T' hT'
                apply IH F' (Nat.lt_succ_self F')
                have h1 : travBound Ds Rm r T' c
                    ≤ travBound Ds Rm r (insert d seen) c :=
                  travBound_anti Ds Rm r hT' c
                have h2 : travBound Ds Rm r (insert d seen) c
                    < travBound Ds Rm r seen a := by
                  unfold travBound
                  rw [hcard]
                  have hrc : r c ≤ Rm := hRm c
                  have heq : Ds.card - (seen ∩ Ds).card
                      = (Ds.card - ((seen ∩ Ds).card + 1)) + 1 := by omega
                  rw [heq, Nat.succ_mul]
                  omega
                omega
              obtain ⟨S', hS', hsub⟩ := tlistAux_total cs.reverse
                (insert d seen) (insert d seen)
                (Finset.Subset.refl (insert d seen)) hchild
              refine ⟨S', ?_,
                Finset.Subset.trans (Finset.subset_insert d seen) hsub⟩
              simpa [traverseNode, hHa, hds] using hS'

/-- C8: on a heap whose cycles all pass through marked composites (witnessed
by a rank function decreasing into every child of an unmarked extensible
composite), the top-level deep traversal completes within an explicit fuel
bound; a marked composite whose publisher id is already in the seen-set is
pruned without walking its subtree again; primitives and non-extensible
values end the walk with no effect on the seen-set; and the top-level call
starts from the cleared seen-set. -/
theorem traverse_cycle_safe (H : Heap) (r : Nat → Nat) (Rm : Nat)
    (Ds : Finset Nat)
    (hR : ∀ a isArr cs b, H a = .comp isArr true none cs → b ∈ cs →
      r b < r a)
    (hRm : ∀ a, r a ≤ Rm)
    (hDs : ∀ a isArr ext d cs, H a = .comp isArr ext (some d) cs → d ∈ Ds) :
    (∀ a, ∃ S', traverse H (Ds.card * (Rm + 1) + Rm + 1) a = some S') ∧
    (∀ F a seen isArr cs d, H a = .comp isArr true (some d) cs → d ∈ seen →
      traverseNode H (F + 1) a seen = some seen) ∧
    (∀ F a seen, H a = .prim → traverseNode H (F + 1) a seen = some seen) ∧
    (∀ F a seen isArr ob cs, H a = .comp isArr false ob cs →
      traverseNode H (F + 1) a seen = some seen) ∧
    (∀ F a, traverse H F a = traverseNode H F a ∅) := by
  refine ⟨?_, ?_, ?_, ?_, fun F a => rfl⟩
  · intro a
    have hb : travBound Ds Rm r ∅ a < Ds.card * (Rm + 1) + Rm + 1 := by
      unfold travBound
      have h0 : ((∅ : Finset Nat) ∩ Ds).card = 0 := by simp
      rw [h0, Nat.sub_zero]
      have := hRm a
      omega
    obtain ⟨S', hS', _⟩ := traverseNode_total H r Rm Ds hR hRm hDs
      (Ds.card * (Rm + 1) + Rm + 1) a ∅ hb
    exact ⟨S', hS'⟩
  · intro F a seen isArr cs d h hds
    simp [traverseNode, h, hds]
  · intro F a seen h
    simp [traverseNode, h]
  · intro F a seen isArr ob cs h
    simp [traverseNode, h]

theorem traverse_cycle_safe_witness :
    ∃ S', traverse HEx 2 0 = some S' := by
  have hr : ∀ a isArr cs b, HEx a = .comp isArr true none cs → b ∈ cs →
      rEx b < rEx a := by
    intro a isArr cs b hEq _
    rcases eq_or_ne a 0 with ha | ha <;> simp [HEx, ha] at hEq
  have hrm : ∀ a, rEx a ≤ 0 := fun _ => Nat.le_refl 0
  have hds : ∀ a isArr ext d cs, HEx a = .comp isArr ext (some d) cs →
      d ∈ ({5} : Finset Nat) := by
    intro a isArr ext d cs hEq
    rcases eq_or_ne a 0 with ha | ha
    · subst ha
      have hEq' : Node.comp false true (some 5) [0]
          = Node.comp isArr ext (some d) cs := hEq
      injection hEq' with h1 h2 h3 h4
      injection h3 with h3
      subst h3
      simp
    · simp [HEx, ha] at hEq
  have h := (traverse_cycle_safe HEx rEx 0 {5} hr hrm hds).1 0
  simpa using h
